import Mathlib

/-!
Verification of the `gy` YAML path tool (src/gy.go).

The YAML tree (`yaml.Node` of gopkg.in/yaml.v3) is embedded as the
inductive `Node` below; Go strings are embedded as `List Char` (byte-wise
string equality coincides with character-list equality on valid UTF-8).
Each Go function of gy.go is translated one-to-one:
  `splitPath`   → `splitPath`   (character scan with an in-bracket flag)
  `extractPath` → `extractPath` / `resolveParts` (the walking loop)
  `wrapInPath`  → `wrapInPath`  / `wrapSegs` (last-to-first rebuild)
  `listNode`    → `listNode`    (lines returned instead of printed)
`strconv.Atoi` is embedded as `goAtoi` (optional sign, decimal digits,
64-bit range check).
-/

/-- The four `yaml.Kind` values used by gy.go. -/
inductive NodeKind where
  | documentNode
  | mappingNode
  | sequenceNode
  | scalarNode
deriving DecidableEq

/-- Embedding of `yaml.Node`: the fields gy.go reads or writes
(`Kind`, `Tag`, `Value`, `Content`). -/
inductive Node where
  | mk (kind : NodeKind) (tag : List Char) (value : List Char) (content : List Node)

def Node.kind : Node → NodeKind
  | .mk k _ _ _ => k

def Node.tag : Node → List Char
  | .mk _ t _ _ => t

def Node.value : Node → List Char
  | .mk _ _ v _ => v

def Node.content : Node → List Node
  | .mk _ _ _ c => c

@[simp] theorem Node.kind_mk (k : NodeKind) (t v : List Char) (c : List Node) :
    (Node.mk k t v c).kind = k := rfl

@[simp] theorem Node.tag_mk (k : NodeKind) (t v : List Char) (c : List Node) :
    (Node.mk k t v c).tag = t := rfl

@[simp] theorem Node.value_mk (k : NodeKind) (t v : List Char) (c : List Node) :
    (Node.mk k t v c).value = v := rfl

@[simp] theorem Node.content_mk (k : NodeKind) (t v : List Char) (c : List Node) :
    (Node.mk k t v c).content = c := rfl

theorem Node.sizeOf_head_lt (k : NodeKind) (t v : List Char) (c : Node) (tl : List Node) :
    sizeOf c < sizeOf (Node.mk k t v (c :: tl)) := by
  simp [Node.mk.sizeOf_spec]
  omega

/-- gy.go `splitPath`, expressed with the pending segment text carried as an
accumulator (`pending` equals `pattern[start:i]` of the Go index scan) and the
`inBracket` flag. -/
def splitPathAux : List Char → List Char → Bool → List (List Char)
  | [], pending, _ => if pending.isEmpty then [] else [pending]
  | c :: cs, pending, inB =>
    if c = '[' then
      if inB then splitPathAux cs (pending ++ [c]) inB
      else (if pending.isEmpty then [] else [pending]) ++ splitPathAux cs ['['] true
    else if c = ']' then
      if inB then (pending ++ [']']) :: splitPathAux cs [] false
      else splitPathAux cs (pending ++ [c]) inB
    else if c = '.' then
      if inB then splitPathAux cs (pending ++ [c]) inB
      else (if pending.isEmpty then [] else [pending]) ++ splitPathAux cs [] inB
    else splitPathAux cs (pending ++ [c]) inB

/-- gy.go `splitPath`: scan starts with no pending text, outside brackets. -/
def splitPath (pattern : List Char) : List (List Char) :=
  splitPathAux pattern [] false

/-- ASCII decimal digit test, as `strconv` uses (`ch - '0' <= 9`). -/
def isDigitCh (c : Char) : Bool := '0' ≤ c && c ≤ '9'

/-- Value of a non-empty all-digit string; `none` on empty input or any
non-digit character — the digit part of `strconv.Atoi`. -/
def digitsVal (s : List Char) : Option Nat :=
  if s.isEmpty then none
  else if s.all isDigitCh then
    some (s.foldl (fun n c => n * 10 + (c.toNat - 48)) 0)
  else none

/-- Embedding of Go `strconv.Atoi`: optional leading sign, decimal digits,
error (`none`) on empty digits, stray characters, or a value outside the
64-bit signed range (Atoi reports ErrRange as a non-nil error). -/
def goAtoi (s : List Char) : Option Int :=
  match s with
  | '-' :: rest =>
    (digitsVal rest).bind fun n =>
      if (n : Int) ≤ 2 ^ 63 then some (-(n : Int)) else none
  | '+' :: rest =>
    (digitsVal rest).bind fun n =>
      if (n : Int) ≤ 2 ^ 63 - 1 then some (n : Int) else none
  | _ =>
    (digitsVal s).bind fun n =>
      if (n : Int) ≤ 2 ^ 63 - 1 then some (n : Int) else none

/-- The bracket content `part[1 : len(part)-1]`. -/
def bracketIdx (part : List Char) : List Char := (part.drop 1).dropLast

/-- gy.go `extractPath`, mapping case: the `for i := 0; i < len; i += 2`
loop over `Content`, matching `Content[i].Value == part` with the
`i+1 < len` guard, first match wins. -/
def mapLookup : List Node → List Char → Option Node
  | k :: v :: rest, part => if k.value = part then some v else mapLookup rest part
  | _, _ => none

/-- The walking loop of gy.go `extractPath` (lines 169–225): one equation per
branch of the Go `switch current.Kind`.  A Document node retries the same
segment on its first child; empty segments are skipped before the switch. -/
def resolveParts (current : Node) (parts : List (List Char)) : Option Node :=
  match parts with
  | [] => some current
  | part :: rest =>
    if part = [] then resolveParts current rest
    else
      match current with
      | .mk .documentNode _ _ content =>
        match content with
        | c :: _ => resolveParts c (part :: rest)
        | [] => none
      | .mk .mappingNode _ _ content =>
        match mapLookup content part with
        | some v => resolveParts v rest
        | none => none
      | .mk .sequenceNode _ _ content =>
        if part.length > 2 && part.head? == some '[' && part.getLast? == some ']' then
          match goAtoi (bracketIdx part) with
          | some index =>
            if h : 0 ≤ index ∧ index.toNat < content.length then
              resolveParts (content.get ⟨index.toNat, h.2⟩) rest
            else none
          | none => none
        else none
      | .mk .scalarNode _ _ _ => none
termination_by (parts.length, sizeOf current)
decreasing_by
  all_goals first
    | exact Prod.Lex.right _ (Node.sizeOf_head_lt _ _ _ _ _)
    | exact Prod.Lex.left _ _ (by simp)

/-- The leading-dot strip shared by `extractPath` and `wrapInPath`
(`if len(pattern) > 0 && pattern[0] == '.'`). -/
def stripDot (pattern : List Char) : List Char :=
  match pattern with
  | '.' :: rest => rest
  | p => p

/-- gy.go `extractPath`: strip a leading dot, return the node itself on an
empty remainder, otherwise run the walking loop over the split segments. -/
def extractPath (node : Node) (pattern : List Char) : Option Node :=
  let p := stripDot pattern
  if p = [] then some node
  else resolveParts node (splitPath p)

/-- The `{Kind: ScalarNode, Value: "null", Tag: "!!null"}` placeholder
gy.go `wrapInPath` appends before the target index. -/
def nullScalar : Node := .mk .scalarNode "!!null".toList "null".toList []

/-- The bracket test of gy.go `wrapInPath`
(`len(part) > 0 && part[0] == '[' && part[len(part)-1] == ']'`). -/
def segWrapBracket (part : List Char) : Bool :=
  part.length > 0 && part.head? == some '[' && part.getLast? == some ']'

/-- Whether a segment's bracket content parses (via `goAtoi`) to a
non-negative integer; used to state which paths round-trip. -/
def segParsesNonneg (part : List Char) : Bool :=
  match goAtoi (bracketIdx part) with
  | some k => decide (0 ≤ k)
  | none => false

/-- One iteration of the gy.go `wrapInPath` rebuild loop: a bracket segment
(`part[0] == '['`, `part[len-1] == ']'`) with a parsable index builds a
Sequence of `index` null placeholders followed by `current`; an unparsable
index aborts (`none`, the Go `return extracted`); any other segment builds a
one-pair Mapping with a `!!str` key equal to the segment text. -/
def applySeg (part : List Char) (current : Node) : Option Node :=
  if segWrapBracket part then
    match goAtoi (bracketIdx part) with
    | some index =>
      some (.mk .sequenceNode [] []
        (List.replicate index.toNat nullScalar ++ [current]))
    | none => none
  else
    some (.mk .mappingNode [] []
      [.mk .scalarNode "!!str".toList part [], current])

/-- The gy.go `wrapInPath` loop `for i := len(parts)-1; i >= 0; i--`: the
last segment is applied to `extracted` first, each earlier segment wraps the
result; `none` propagates the abort on an unparsable bracket index. -/
def wrapSegs : List (List Char) → Node → Option Node
  | [], current => some current
  | part :: rest, current =>
    match wrapSegs rest current with
    | some inner => applySeg part inner
    | none => none

/-- gy.go `wrapInPath`: strip the leading dot, split, run the rebuild loop;
on abort the originally extracted node is returned bare.  The `root`
argument mirrors the Go signature (it is never read). -/
def wrapInPath (root : Node) (pattern : List Char) (extracted : Node) : Node :=
  let p := stripDot pattern
  match wrapSegs (splitPath p) extracted with
  | some w => w
  | none => extracted

/-- The key/value pairs of a Mapping's flat `Content` list, in order
(a trailing odd element forms no pair, matching the `i+1 < len` guard). -/
def pairsOf : List Node → List (Node × Node)
  | k :: v :: rest => (k, v) :: pairsOf rest
  | _ => []

/-- The walking loop of `extractPath` with the `part == ""` skip branch
removed; used to state that the skip branch is unreachable on segment lists
produced by `splitPath`. -/
def resolvePartsNoSkip (current : Node) (parts : List (List Char)) : Option Node :=
  match parts with
  | [] => some current
  | part :: rest =>
    match current with
    | .mk .documentNode _ _ content =>
      match content with
      | c :: _ => resolvePartsNoSkip c (part :: rest)
      | [] => none
    | .mk .mappingNode _ _ content =>
      match mapLookup content part with
      | some v => resolvePartsNoSkip v rest
      | none => none
    | .mk .sequenceNode _ _ content =>
      if part.length > 2 && part.head? == some '[' && part.getLast? == some ']' then
        match goAtoi (bracketIdx part) with
        | some index =>
          if h : 0 ≤ index ∧ index.toNat < content.length then
            resolvePartsNoSkip (content.get ⟨index.toNat, h.2⟩) rest
          else none
        | none => none
      else none
    | .mk .scalarNode _ _ _ => none
termination_by (parts.length, sizeOf current)
decreasing_by
  all_goals first
    | exact Prod.Lex.right _ (Node.sizeOf_head_lt _ _ _ _ _)
    | exact Prod.Lex.left _ _ (by simp)

mutual

/-- gy.go `listNode`, with the printed lines returned as a list (one
element per `fmt.Printf` line, without the newline).  The depth guard,
Document descent, Mapping pair loop and Sequence index loop follow the Go
switch arm by arm. -/
def listNode (node : Node) (pfx : List Char) (maxDepth currentDepth : Int) :
    List (List Char) :=
  if maxDepth > 0 ∧ currentDepth ≥ maxDepth then []
  else
    match node with
    | .mk .documentNode _ _ content =>
      match content with
      | c :: _ => listNode c pfx maxDepth currentDepth
      | [] => []
    | .mk .mappingNode _ _ content => listPairs content pfx maxDepth currentDepth
    | .mk .sequenceNode _ _ content => listItems content 0 pfx maxDepth currentDepth
    | .mk .scalarNode _ _ _ => []
termination_by sizeOf node

/-- The `for i := 0; i < len(Content); i += 2` loop of gy.go `listNode`
over a Mapping's content: print `prefix + key`, recurse into the value with
`prefix+"  "` at `currentDepth+1`. -/
def listPairs (content : List Node) (pfx : List Char) (maxDepth currentDepth : Int) :
    List (List Char) :=
  match content with
  | k :: v :: rest =>
    (pfx ++ k.value) ::
      (listNode v (pfx ++ "  ".toList) maxDepth (currentDepth + 1) ++
        listPairs rest pfx maxDepth currentDepth)
  | _ => []
termination_by sizeOf content

/-- The `for i, item := range Content` loop of gy.go `listNode` over a
Sequence's content: print `prefix + "[i]"`, recurse into the element. -/
def listItems (items : List Node) (i : Nat) (pfx : List Char)
    (maxDepth currentDepth : Int) : List (List Char) :=
  match items with
  | item :: rest =>
    (pfx ++ '[' :: Nat.toDigits 10 i ++ [']']) ::
      (listNode item (pfx ++ "  ".toList) maxDepth (currentDepth + 1) ++
        listItems rest (i + 1) pfx maxDepth currentDepth)
  | [] => []
termination_by sizeOf items

end

mutual

/-- gy.go `listNode` with the depth guard removed: the behavior the lister
has whenever `maxDepth ≤ 0`, used to state that depth 0 means unlimited. -/
def listAll (node : Node) (pfx : List Char) : List (List Char) :=
  match node with
  | .mk .documentNode _ _ content =>
    match content with
    | c :: _ => listAll c pfx
    | [] => []
  | .mk .mappingNode _ _ content => listPairsAll content pfx
  | .mk .sequenceNode _ _ content => listItemsAll content 0 pfx
  | .mk .scalarNode _ _ _ => []
termination_by sizeOf node

/-- Depth-free version of `listPairs`. -/
def listPairsAll (content : List Node) (pfx : List Char) : List (List Char) :=
  match content with
  | k :: v :: rest =>
    (pfx ++ k.value) :: (listAll v (pfx ++ "  ".toList) ++ listPairsAll rest pfx)
  | _ => []
termination_by sizeOf content

/-- Depth-free version of `listItems`. -/
def listItemsAll (items : List Node) (i : Nat) (pfx : List Char) :
    List (List Char) :=
  match items with
  | item :: rest =>
    (pfx ++ '[' :: Nat.toDigits 10 i ++ [']']) ::
      (listAll item (pfx ++ "  ".toList) ++ listItemsAll rest (i + 1) pfx)
  | [] => []
termination_by sizeOf items

end

/-! ### Concrete documents used as evaluation inputs -/

/-- A `!!str` scalar node. -/
def exScalar (s : String) : Node := .mk .scalarNode "!!str".toList s.toList []

/-- A Document wrapper holding one scalar. -/
def exDoc1 : Node := .mk .documentNode [] [] [exScalar "x"]

/-- The two-element sequence `[x, y]`. -/
def exSeqXY : Node :=
  .mk .sequenceNode "!!seq".toList [] [exScalar "x", exScalar "y"]

/-- The mapping `{a: [x, y]}`. -/
def exMapA : Node := .mk .mappingNode "!!map".toList [] [exScalar "a", exSeqXY]

/-- The parsed document `a: [x, y]` (Document wrapper around `exMapA`). -/
def exDocA : Node := .mk .documentNode [] [] [exMapA]

/-- A mapping whose sole key is the text `[-1]`. -/
def exMapNegKey : Node :=
  .mk .mappingNode "!!map".toList [] [exScalar "[-1]", exScalar "v"]

/-- The mapping `{a: va, b: vb}`. -/
def exMapAB : Node :=
  .mk .mappingNode "!!map".toList []
    [exScalar "a", exScalar "va", exScalar "b", exScalar "vb"]

/-- A Document wrapper around `exMapAB`. -/
def exDocAB : Node := .mk .documentNode [] [] [exMapAB]

/-- The mapping `{user: a, password: b}`. -/
def exCred : Node :=
  .mk .mappingNode "!!map".toList []
    [exScalar "user", exScalar "a", exScalar "password", exScalar "b"]

/-- The mapping `{host: x, port: 1, credentials: {user: a, password: b}}` of
the spec's listing example. -/
def exDb : Node :=
  .mk .mappingNode "!!map".toList []
    [exScalar "host", exScalar "x",
     exScalar "port", .mk .scalarNode "!!int".toList "1".toList [],
     exScalar "credentials", exCred]

/-! ### Unfolding lemmas for the two walking loops (one per branch) -/

theorem resolveParts_nil (current : Node) : resolveParts current [] = some current := by
  rw [resolveParts.eq_def]

theorem resolveParts_skip (current : Node) (rest : List (List Char)) :
    resolveParts current ([] :: rest) = resolveParts current rest := by
  rw [resolveParts.eq_def]
  simp

theorem resolveParts_doc (t v : List Char) (content : List Node)
    (part : List Char) (rest : List (List Char)) (h : part ≠ []) :
    resolveParts (.mk .documentNode t v content) (part :: rest) =
      match content with
      | c :: _ => resolveParts c (part :: rest)
      | [] => none := by
  rw [resolveParts.eq_def]
  simp [h]

theorem resolveParts_map (t v : List Char) (content : List Node)
    (part : List Char) (rest : List (List Char)) (h : part ≠ []) :
    resolveParts (.mk .mappingNode t v content) (part :: rest) =
      match mapLookup content part with
      | some w => resolveParts w rest
      | none => none := by
  rw [resolveParts.eq_def]
  simp [h]

theorem resolveParts_seq (t v : List Char) (content : List Node)
    (part : List Char) (rest : List (List Char)) (h : part ≠ []) :
    resolveParts (.mk .sequenceNode t v content) (part :: rest) =
      (if part.length > 2 && part.head? == some '[' && part.getLast? == some ']' then
        match goAtoi (bracketIdx part) with
        | some index =>
          if hidx : 0 ≤ index ∧ index.toNat < content.length then
            resolveParts (content.get ⟨index.toNat, hidx.2⟩) rest
          else none
        | none => none
      else none) := by
  rw [resolveParts.eq_def]
  simp [h]

theorem resolveParts_scalar (t v : List Char) (content : List Node)
    (part : List Char) (rest : List (List Char)) (h : part ≠ []) :
    resolveParts (.mk .scalarNode t v content) (part :: rest) = none := by
  rw [resolveParts.eq_def]
  simp [h]

theorem noSkip_nil (current : Node) : resolvePartsNoSkip current [] = some current := by
  rw [resolvePartsNoSkip.eq_def]

theorem noSkip_doc (t v : List Char) (content : List Node)
    (part : List Char) (rest : List (List Char)) :
    resolvePartsNoSkip (.mk .documentNode t v content) (part :: rest) =
      match content with
      | c :: _ => resolvePartsNoSkip c (part :: rest)
      | [] => none := by
  rw [resolvePartsNoSkip.eq_def]

theorem noSkip_map (t v : List Char) (content : List Node)
    (part : List Char) (rest : List (List Char)) :
    resolvePartsNoSkip (.mk .mappingNode t v content) (part :: rest) =
      match mapLookup content part with
      | some w => resolvePartsNoSkip w rest
      | none => none := by
  rw [resolvePartsNoSkip.eq_def]

theorem noSkip_seq (t v : List Char) (content : List Node)
    (part : List Char) (rest : List (List Char)) :
    resolvePartsNoSkip (.mk .sequenceNode t v content) (part :: rest) =
      (if part.length > 2 && part.head? == some '[' && part.getLast? == some ']' then
        match goAtoi (bracketIdx part) with
        | some index =>
          if hidx : 0 ≤ index ∧ index.toNat < content.length then
            resolvePartsNoSkip (content.get ⟨index.toNat, hidx.2⟩) rest
          else none
        | none => none
      else none) := by
  rw [resolvePartsNoSkip.eq_def]

theorem noSkip_scalar (t v : List Char) (content : List Node)
    (part : List Char) (rest : List (List Char)) :
    resolvePartsNoSkip (.mk .scalarNode t v content) (part :: rest) = none := by
  rw [resolvePartsNoSkip.eq_def]

/-! ### General lemmas about the splitter and the resolver -/

/-- Every segment the splitter scan emits is non-empty: text is flushed only
when present, and a closing bracket always flushes at least the `]`. -/
theorem splitPathAux_ne_nil :
    ∀ (cs pending : List Char) (inB : Bool) (s : List Char),
      s ∈ splitPathAux cs pending inB → s ≠ [] := by
  intro cs
  induction cs with
  | nil =>
    intro pending inB s hs hnil
    subst hnil
    rw [splitPathAux] at hs
    split_ifs at hs with h
    · simp at hs
    · simp_all
  | cons c cs ih =>
    intro pending inB s hs hnil
    subst hnil
    rw [splitPathAux] at hs
    split_ifs at hs <;>
      first
      | exact ih _ _ [] hs rfl
      | (rcases List.mem_append.mp hs with hm | hm
         · simp_all
         · exact ih _ _ [] hm rfl)
      | (rcases List.mem_cons.mp hs with hm | hm
         · simp at hm
         · exact ih _ _ [] hm rfl)

/-- No output of `splitPath` is the empty segment. -/
theorem splitPath_ne_nil (p : List Char) (s : List Char)
    (hs : s ∈ splitPath p) : s ≠ [] :=
  splitPathAux_ne_nil p [] false s hs

/-- The even-index scan of the mapping branch returns the value of the first
key/value pair (in `Content` order) whose key text equals the segment. -/
theorem mapLookup_eq_find :
    ∀ (l : List Node) (t : List Char),
      mapLookup l t =
        ((pairsOf l).find? (fun kv => kv.1.value == t)).map Prod.snd
  | [], _ => rfl
  | [_], _ => rfl
  | k :: v :: rest, t => by
    by_cases hk : k.value = t
    · simp [mapLookup, pairsOf, hk, List.find?]
    · simp only [mapLookup, pairsOf, hk, if_false, List.find?_cons]
      have hbeq : (k.value == t) = false := by
        simpa [beq_iff_eq] using hk
      simp [hbeq, mapLookup_eq_find rest t]

/-- On a segment list without empty segments, the resolver with and without
the skip branch agree: the skip branch is never taken. -/
theorem resolveParts_eq_noSkip (parts : List (List Char))
    (h : ∀ s ∈ parts, s ≠ []) :
    ∀ current, resolveParts current parts = resolvePartsNoSkip current parts := by
  induction parts with
  | nil => intro current; rw [resolveParts_nil, noSkip_nil]
  | cons part rest ih =>
    have hpart : part ≠ [] := h part (by simp)
    have hrest : ∀ s ∈ rest, s ≠ [] := fun s hs => h s (by simp [hs])
    suffices H : ∀ (n : ℕ) (current : Node), sizeOf current ≤ n →
        resolveParts current (part :: rest) =
          resolvePartsNoSkip current (part :: rest) by
      intro current; exact H (sizeOf current) current le_rfl
    intro n
    induction n with
    | zero =>
      intro current hc
      exfalso
      rcases current with ⟨k, t, v, c⟩
      simp [Node.mk.sizeOf_spec] at hc
    | succ n ihn =>
      intro current hc
      rcases current with ⟨k, t, v, content⟩
      cases k with
      | documentNode =>
        rw [resolveParts_doc _ _ _ _ _ hpart, noSkip_doc]
        cases content with
        | nil => rfl
        | cons c tl =>
          have hsz : sizeOf c ≤ n := by
            have := Node.sizeOf_head_lt NodeKind.documentNode t v c tl
            simp [Node.mk.sizeOf_spec] at hc this ⊢
            omega
          exact ihn c hsz
      | mappingNode =>
        rw [resolveParts_map _ _ _ _ _ hpart, noSkip_map]
        rcases hml : mapLookup content part with _ | w
        · rfl
        · exact ih hrest w
      | sequenceNode =>
        rw [resolveParts_seq _ _ _ _ _ hpart, noSkip_seq]
        by_cases hcond :
            (part.length > 2 && part.head? == some '[' &&
              part.getLast? == some ']') = true
        · rw [if_pos hcond, if_pos hcond]
          rcases hat : goAtoi (bracketIdx part) with _ | index
          · rfl
          · dsimp only
            by_cases hidx : 0 ≤ index ∧ index.toNat < content.length
            · rw [dif_pos hidx, dif_pos hidx]
              exact ih hrest _
            · rw [dif_neg hidx, dif_neg hidx]
        · rw [if_neg hcond, if_neg hcond]
      | scalarNode => rw [resolveParts_scalar _ _ _ _ _ hpart, noSkip_scalar]

/-- Atoi of the empty string is an error. -/
theorem goAtoi_nil : goAtoi [] = none := rfl

/-- Decomposition of a wrap-bracket-shaped segment: it is `[`, a middle
(possibly empty), `]`, and `bracketIdx` returns exactly the middle. -/
theorem bracket_shape (part : List Char) (h : segWrapBracket part = true) :
    ∃ mid, part = '[' :: mid ++ [']'] ∧ bracketIdx part = mid := by
  rcases part with _ | ⟨c, cs⟩
  · simp [segWrapBracket] at h
  · simp only [segWrapBracket, List.head?_cons, Bool.and_eq_true, beq_iff_eq,
      Option.some.injEq] at h
    obtain ⟨⟨-, hhead⟩, hlast⟩ := h
    subst hhead
    have hcs : cs ≠ [] := by
      intro h0
      subst h0
      simp at hlast
    have hmem : ']' ∈ ('[' :: cs).getLast? := by
      rw [hlast]
      rfl
    have hsplit := List.dropLast_append_getLast? ']' hmem
    have hd : ('[' :: cs).dropLast = '[' :: cs.dropLast := by
      rcases cs with _ | ⟨a, as⟩
      · exact absurd rfl hcs
      · rfl
    rw [hd] at hsplit
    refine ⟨cs.dropLast, hsplit.symm, ?_⟩
    simp [bracketIdx]

/-- Core of the round-trip: on segment lists whose bracket-shaped segments
all parse to non-negative indices, the rebuild loop succeeds and resolving
its output through the same segments returns the wrapped node. -/
theorem wrapSegs_resolve (parts : List (List Char))
    (hne : ∀ part ∈ parts, part ≠ [])
    (hgood : ∀ part ∈ parts, segWrapBracket part = true → segParsesNonneg part = true) :
    ∀ m : Node, ∃ w, wrapSegs parts m = some w ∧ resolveParts w parts = some m := by
  induction parts with
  | nil => exact fun m => ⟨m, rfl, resolveParts_nil m⟩
  | cons part rest ih =>
    intro m
    have hpart : part ≠ [] := hne part (by simp)
    obtain ⟨w, hw, hr⟩ :=
      ih (fun s hs => hne s (by simp [hs])) (fun s hs => hgood s (by simp [hs])) m
    by_cases hbr : segWrapBracket part = true
    · have hnn := hgood part (by simp) hbr
      rcases hat : goAtoi (bracketIdx part) with _ | k
      · rw [segParsesNonneg, hat] at hnn
        exact absurd hnn (by simp)
      · have hk : 0 ≤ k := by
          rw [segParsesNonneg, hat] at hnn
          simpa using hnn
        obtain ⟨mid, hpeq, hmid⟩ := bracket_shape part hbr
        have hmidne : mid ≠ [] := by
          intro h0
          rw [hmid, h0, goAtoi_nil] at hat
          exact Option.noConfusion hat
        have hlen : part.length > 2 := by
          rw [hpeq]
          rcases mid with _ | ⟨a, as⟩
          · exact absurd rfl hmidne
          · simp
        have hlast : part.getLast? = some ']' := by
          rw [hpeq]
          exact List.getLast?_concat _
        have hhead : part.head? = some '[' := by rw [hpeq]; rfl
        have hcond : (part.length > 2 && part.head? == some '[' &&
            part.getLast? == some ']') = true := by
          simp only [Bool.and_eq_true, beq_iff_eq, decide_eq_true_eq]
          exact ⟨⟨hlen, hhead⟩, hlast⟩
        refine ⟨.mk .sequenceNode [] [] (List.replicate k.toNat nullScalar ++ [w]),
          ?_, ?_⟩
        · simp only [wrapSegs, hw]
          simp [applySeg, hbr, hat]
        · rw [resolveParts_seq _ _ _ _ _ hpart, if_pos hcond, hat]
          dsimp only
          have hbound : 0 ≤ k ∧
              k.toNat < (List.replicate k.toNat nullScalar ++ [w]).length :=
            ⟨hk, by simp⟩
          rw [dif_pos hbound]
          have hget : (List.replicate k.toNat nullScalar ++ [w]).get
              ⟨k.toNat, hbound.2⟩ = w := by
            simp [List.get_eq_getElem]
          rw [hget]
          exact hr
    · refine ⟨.mk .mappingNode [] []
        [.mk .scalarNode "!!str".toList part [], w], ?_, ?_⟩
      · simp only [wrapSegs, hw]
        simp [applySeg, hbr]
      · rw [resolveParts_map _ _ _ _ _ hpart]
        have hml : mapLookup [Node.mk .scalarNode "!!str".toList part [], w] part =
            some w := by
          simp [mapLookup]
        rw [hml]
        exact hr

/-! ### Unfolding lemmas for the lister -/

theorem listNode_stop (n : Node) (pfx : List Char) (maxD curD : Int)
    (h : maxD > 0 ∧ curD ≥ maxD) : listNode n pfx maxD curD = [] := by
  rw [listNode.eq_def, if_pos h]

theorem listNode_doc (t v : List Char) (content : List Node) (pfx : List Char)
    (maxD curD : Int) (h : ¬(maxD > 0 ∧ curD ≥ maxD)) :
    listNode (.mk .documentNode t v content) pfx maxD curD =
      match content with
      | c :: _ => listNode c pfx maxD curD
      | [] => [] := by
  rw [listNode.eq_def, if_neg h]

theorem listNode_map (t v : List Char) (content : List Node) (pfx : List Char)
    (maxD curD : Int) (h : ¬(maxD > 0 ∧ curD ≥ maxD)) :
    listNode (.mk .mappingNode t v content) pfx maxD curD =
      listPairs content pfx maxD curD := by
  rw [listNode.eq_def, if_neg h]

theorem listNode_seq (t v : List Char) (content : List Node) (pfx : List Char)
    (maxD curD : Int) (h : ¬(maxD > 0 ∧ curD ≥ maxD)) :
    listNode (.mk .sequenceNode t v content) pfx maxD curD =
      listItems content 0 pfx maxD curD := by
  rw [listNode.eq_def, if_neg h]

theorem listNode_scalar (t v : List Char) (content : List Node) (pfx : List Char)
    (maxD curD : Int) : listNode (.mk .scalarNode t v content) pfx maxD curD = [] := by
  rw [listNode.eq_def]
  split_ifs <;> rfl

theorem listPairs_cons (k v : Node) (rest : List Node) (pfx : List Char)
    (maxD curD : Int) :
    listPairs (k :: v :: rest) pfx maxD curD =
      (pfx ++ k.value) ::
        (listNode v (pfx ++ "  ".toList) maxD (curD + 1) ++
          listPairs rest pfx maxD curD) := by
  rw [listPairs.eq_def]

theorem listItems_cons (item : Node) (rest : List Node) (i : Nat) (pfx : List Char)
    (maxD curD : Int) :
    listItems (item :: rest) i pfx maxD curD =
      (pfx ++ '[' :: Nat.toDigits 10 i ++ [']']) ::
        (listNode item (pfx ++ "  ".toList) maxD (curD + 1) ++
          listItems rest (i + 1) pfx maxD curD) := by
  rw [listItems.eq_def]

theorem listAll_doc (t v : List Char) (content : List Node) (pfx : List Char) :
    listAll (.mk .documentNode t v content) pfx =
      match content with
      | c :: _ => listAll c pfx
      | [] => [] := by
  rw [listAll.eq_def]

theorem listAll_map (t v : List Char) (content : List Node) (pfx : List Char) :
    listAll (.mk .mappingNode t v content) pfx = listPairsAll content pfx := by
  rw [listAll.eq_def]

theorem listAll_seq (t v : List Char) (content : List Node) (pfx : List Char) :
    listAll (.mk .sequenceNode t v content) pfx = listItemsAll content 0 pfx := by
  rw [listAll.eq_def]

theorem listAll_scalar (t v : List Char) (content : List Node) (pfx : List Char) :
    listAll (.mk .scalarNode t v content) pfx = [] := by
  rw [listAll.eq_def]

theorem listPairsAll_cons (k v : Node) (rest : List Node) (pfx : List Char) :
    listPairsAll (k :: v :: rest) pfx =
      (pfx ++ k.value) ::
        (listAll v (pfx ++ "  ".toList) ++ listPairsAll rest pfx) := by
  rw [listPairsAll.eq_def]

theorem listItemsAll_cons (item : Node) (rest : List Node) (i : Nat) (pfx : List Char) :
    listItemsAll (item :: rest) i pfx =
      (pfx ++ '[' :: Nat.toDigits 10 i ++ [']']) ::
        (listAll item (pfx ++ "  ".toList) ++ listItemsAll rest (i + 1) pfx) := by
  rw [listItemsAll.eq_def]

theorem listPairs_nil (pfx : List Char) (maxD curD : Int) :
    listPairs [] pfx maxD curD = [] := by
  rw [listPairs.eq_def]

theorem listPairs_single (k : Node) (pfx : List Char) (maxD curD : Int) :
    listPairs [k] pfx maxD curD = [] := by
  rw [listPairs.eq_def]

theorem listItems_nil (i : Nat) (pfx : List Char) (maxD curD : Int) :
    listItems [] i pfx maxD curD = [] := by
  rw [listItems.eq_def]

theorem listPairsAll_nil (pfx : List Char) : listPairsAll [] pfx = [] := by
  rw [listPairsAll.eq_def]

theorem listPairsAll_single (k : Node) (pfx : List Char) :
    listPairsAll [k] pfx = [] := by
  rw [listPairsAll.eq_def]

theorem listItemsAll_nil (i : Nat) (pfx : List Char) : listItemsAll [] i pfx = [] := by
  rw [listItemsAll.eq_def]

/-- With a non-positive maximum depth the guard `maxDepth > 0 && currentDepth
>= maxDepth` never fires, so the lister behaves exactly like its depth-free
version: depth 0 (or negative) means unlimited. -/
theorem list_depth_nonpos_aux : ∀ N : ℕ,
    (∀ (n : Node) (pfx : List Char) (maxD curD : Int), sizeOf n ≤ N → maxD ≤ 0 →
      listNode n pfx maxD curD = listAll n pfx) ∧
    (∀ (l : List Node) (pfx : List Char) (maxD curD : Int), sizeOf l ≤ N → maxD ≤ 0 →
      listPairs l pfx maxD curD = listPairsAll l pfx) ∧
    (∀ (l : List Node) (i : ℕ) (pfx : List Char) (maxD curD : Int),
      sizeOf l ≤ N → maxD ≤ 0 → listItems l i pfx maxD curD = listItemsAll l i pfx) := by
  intro N
  induction N using Nat.strong_induction_on with
  | _ N ih =>
    refine ⟨?_, ?_, ?_⟩
    · intro n pfx maxD curD hsz hmd
      have hstop : ¬(maxD > 0 ∧ curD ≥ maxD) := fun hc => by omega
      rcases n with ⟨k, t, v, content⟩
      have hcs : sizeOf content < sizeOf (Node.mk k t v content) := by
        simp [Node.mk.sizeOf_spec]
      cases k with
      | documentNode =>
        rw [listNode_doc _ _ _ _ _ _ hstop, listAll_doc]
        cases content with
        | nil => rfl
        | cons c tl =>
          have hlt : sizeOf c < N := by
            have := Node.sizeOf_head_lt NodeKind.documentNode t v c tl
            omega
          exact (ih (sizeOf c) hlt).1 c pfx maxD curD le_rfl hmd
      | mappingNode =>
        rw [listNode_map _ _ _ _ _ _ hstop, listAll_map]
        exact (ih (sizeOf content) (by omega)).2.1 content pfx maxD curD le_rfl hmd
      | sequenceNode =>
        rw [listNode_seq _ _ _ _ _ _ hstop, listAll_seq]
        exact (ih (sizeOf content) (by omega)).2.2 content 0 pfx maxD curD le_rfl hmd
      | scalarNode => rw [listNode_scalar, listAll_scalar]
    · intro l pfx maxD curD hsz hmd
      rcases l with _ | ⟨k, l⟩
      · rw [listPairs_nil, listPairsAll_nil]
      · rcases l with _ | ⟨v, rest⟩
        · rw [listPairs_single, listPairsAll_single]
        · have hsv : sizeOf v < N := by
            simp [List.cons.sizeOf_spec] at hsz
            omega
          have hsr : sizeOf rest < N := by
            simp [List.cons.sizeOf_spec] at hsz
            omega
          rw [listPairs_cons, listPairsAll_cons,
            (ih (sizeOf v) hsv).1 v (pfx ++ "  ".toList) maxD (curD + 1) le_rfl hmd,
            (ih (sizeOf rest) hsr).2.1 rest pfx maxD curD le_rfl hmd]
    · intro l i pfx maxD curD hsz hmd
      rcases l with _ | ⟨item, rest⟩
      · rw [listItems_nil, listItemsAll_nil]
      · have hsv : sizeOf item < N := by
          simp [List.cons.sizeOf_spec] at hsz
          omega
        have hsr : sizeOf rest < N := by
          simp [List.cons.sizeOf_spec] at hsz
          omega
        rw [listItems_cons, listItemsAll_cons,
          (ih (sizeOf item) hsv).1 item (pfx ++ "  ".toList) maxD (curD + 1) le_rfl hmd,
          (ih (sizeOf rest) hsr).2.2 rest (i + 1) pfx maxD curD le_rfl hmd]

/-! ### The claims -/

/-- C9: the path splitter maps `"a.b[2].c"` to exactly `["a", "b", "[2]", "c"]`,
maps `"[0].x"` to `["[0]", "x"]`, and maps the empty string to the empty
sequence of segments. -/
theorem c9_split_path_examples :
    splitPath "a.b[2].c".toList =
      ["a".toList, "b".toList, "[2]".toList, "c".toList] ∧
    splitPath "[0].x".toList = ["[0]".toList, "x".toList] ∧
    splitPath "".toList = [] := by
  refine ⟨by decide, by decide, rfl⟩

/-- C10: for every input string the splitter never produces an empty-string
segment (double, leading and trailing dots yield no segment), so the
resolver's skip-empty-segment branch is unreachable on splitter output: the
resolver coincides with the variant that has no skip branch. -/
theorem c10_no_empty_segments :
    (∀ (p s : List Char), s ∈ splitPath p → s ≠ []) ∧
    (∀ (p : List Char) (n : Node),
      resolveParts n (splitPath p) = resolvePartsNoSkip n (splitPath p)) := by
  refine ⟨splitPath_ne_nil, fun p n => ?_⟩
  exact resolveParts_eq_noSkip (splitPath p) (fun s hs => splitPath_ne_nil p s hs) n

theorem c10_no_empty_segments_witness :
    "a".toList ≠ [] ∧
    resolveParts exDocA (splitPath "a..b".toList) =
      resolvePartsNoSkip exDocA (splitPath "a..b".toList) :=
  ⟨c10_no_empty_segments.1 "a.b".toList "a".toList (by decide),
   c10_no_empty_segments.2 "a..b".toList exDocA⟩

/-- C2 counterexample: on a Document wrapper holding one scalar child, the
resolver applied to the empty path returns the Document wrapper itself, not
the child content as the claim states. -/
theorem c2_root_counterexample :
    extractPath exDoc1 "".toList = some exDoc1 ∧
    extractPath exDoc1 "".toList ≠ some (exScalar "x") := by
  refine ⟨rfl, fun h => ?_⟩
  have h2 : exDoc1 = exScalar "x" := Option.some.inj h
  exact absurd (congrArg Node.kind h2) (by decide)

/-- C2 (amended): resolving the empty path `""` or the root path `"."`
returns the root node itself unchanged — including the Document wrapper when
the root is one; the resolver does not descend into the wrapper's child for
the empty-path case. -/
theorem c2_root_path_returns_root (d : Node) :
    extractPath d "".toList = some d ∧ extractPath d ".".toList = some d :=
  ⟨rfl, rfl⟩

/-- If any segment is bracket-shaped with unparsable content, the rebuild
loop aborts. -/
theorem wrapSegs_abort (parts : List (List Char)) (part : List Char)
    (hmem : part ∈ parts) (hbr : segWrapBracket part = true)
    (hat : goAtoi (bracketIdx part) = none) :
    ∀ m, wrapSegs parts m = none := by
  induction parts with
  | nil => exact absurd hmem (List.not_mem_nil part)
  | cons q rest ih =>
    intro m
    rcases List.mem_cons.mp hmem with h | h
    · subst h
      cases hws : wrapSegs rest m with
      | none => simp [wrapSegs, hws]
      | some inner => simp [wrapSegs, hws, applySeg, hbr, hat]
    · simp [wrapSegs, ih h m]

/-- C3 counterexample: the bracket content `-1` does not denote a
non-negative integer, yet `strconv.Atoi` parses it, so wrapping at
`"a[-1]"` does not return the resolved node bare — it builds
`{a: [v]}` around it. -/
theorem c3_negative_index_counterexample :
    segParsesNonneg "[-1]".toList = false ∧
    wrapInPath (exScalar "v") "a[-1]".toList (exScalar "v") =
      .mk .mappingNode [] []
        [.mk .scalarNode "!!str".toList "a".toList [],
         .mk .sequenceNode [] [] [exScalar "v"]] ∧
    wrapInPath (exScalar "v") "a[-1]".toList (exScalar "v") ≠ exScalar "v" := by
  refine ⟨by decide, rfl, fun h => ?_⟩
  exact absurd (congrArg Node.kind h) (by decide)

/-- C3 (amended): the wrapper aborts the whole reconstruction and returns
the resolved node bare exactly when a bracket segment's content fails to
parse as an *integer* (Go `strconv.Atoi`, signs allowed): unparsable content
aborts, while content parsing to a negative integer does not abort. -/
theorem c3_unparsable_bracket_aborts (root m : Node) (p : List Char)
    (hbad : ∃ part ∈ splitPath (stripDot p), segWrapBracket part = true ∧
      goAtoi (bracketIdx part) = none) :
    wrapInPath root p m = m := by
  obtain ⟨part, hmem, hbr, hat⟩ := hbad
  have habort := wrapSegs_abort (splitPath (stripDot p)) part hmem hbr hat m
  simp [wrapInPath, habort]

theorem c3_unparsable_bracket_aborts_witness :
    wrapInPath (exScalar "v") "a[x]".toList (exScalar "q") = exScalar "q" :=
  c3_unparsable_bracket_aborts (exScalar "v") (exScalar "q") "a[x]".toList
    (by decide)

/-- C4: against a Sequence node, a segment that is a bracketed index parsing
to a non-negative `k` within bounds advances the walk to the `k`-th element;
a malformed bracket (too short, unparsable content), a negative or
out-of-range index, or a non-bracketed (non-empty) segment yields not-found. -/
theorem c4_sequence_segment_resolution (t tg vl : List Char) (cont : List Node)
    (rest : List (List Char)) (ht : t ≠ []) :
    (∀ (k : Int) (e : Node),
      t.length > 2 → t.head? = some '[' → t.getLast? = some ']' →
      goAtoi (bracketIdx t) = some k → 0 ≤ k → cont[k.toNat]? = some e →
      resolveParts (.mk .sequenceNode tg vl cont) (t :: rest) =
        resolveParts e rest) ∧
    ((¬ ∃ k : Int, t.length > 2 ∧ t.head? = some '[' ∧ t.getLast? = some ']' ∧
        goAtoi (bracketIdx t) = some k ∧ 0 ≤ k ∧ k.toNat < cont.length) →
      resolveParts (.mk .sequenceNode tg vl cont) (t :: rest) = none) := by
  constructor
  · intro k e hlen hhead hlast hat hk hget
    rw [resolveParts_seq _ _ _ _ _ ht]
    have hcond : (t.length > 2 && t.head? == some '[' &&
        t.getLast? == some ']') = true := by
      simp [hlen, hhead, hlast]
    rw [if_pos hcond, hat]
    dsimp only
    obtain ⟨hlt, hgetElem⟩ := List.getElem?_eq_some.mp hget
    rw [dif_pos ⟨hk, hlt⟩]
    rw [show cont.get ⟨k.toNat, hlt⟩ = e from by
      rw [List.get_eq_getElem]; exact hgetElem]
  · intro hnot
    rw [resolveParts_seq _ _ _ _ _ ht]
    by_cases hcond : (t.length > 2 && t.head? == some '[' &&
        t.getLast? == some ']') = true
    · rw [if_pos hcond]
      rcases hat : goAtoi (bracketIdx t) with _ | k
      · rfl
      · dsimp only
        rw [dif_neg]
        rintro ⟨hk, hlt⟩
        simp only [Bool.and_eq_true, beq_iff_eq, decide_eq_true_eq] at hcond
        exact hnot ⟨k, hcond.1.1, hcond.1.2, hcond.2, hat, hk, hlt⟩
    · rw [if_neg hcond]

theorem c4_sequence_segment_resolution_witness :
    resolveParts (.mk .sequenceNode "!!seq".toList []
      [exScalar "x", exScalar "y"]) ["[1]".toList] = some (exScalar "y") := by
  have h := (c4_sequence_segment_resolution "[1]".toList "!!seq".toList []
    [exScalar "x", exScalar "y"] [] (by decide)).1 1 (exScalar "y")
    (by decide) (by decide) (by decide) (by decide) (by decide) rfl
  rw [h, resolveParts_nil]

/-- C5: against a Mapping node, a non-empty segment resolves to the value of
the first key/value pair (scanning `Content` pairwise in order) whose key
text equals the segment, and to not-found when no key matches. -/
theorem c5_mapping_segment_resolution (t tg vl : List Char) (cont : List Node)
    (rest : List (List Char)) (ht : t ≠ []) :
    resolveParts (.mk .mappingNode tg vl cont) (t :: rest) =
      match (pairsOf cont).find? (fun kv => kv.1.value == t) with
      | some kv => resolveParts kv.2 rest
      | none => none := by
  rw [resolveParts_map _ _ _ _ _ ht, mapLookup_eq_find]
  rcases h : (pairsOf cont).find? (fun kv => kv.1.value == t) with _ | kv
  · rw [h]
    rfl
  · rw [h]
    rfl

theorem c5_mapping_segment_resolution_witness :
    resolveParts (.mk .mappingNode "!!map".toList []
      [exScalar "a", exScalar "va", exScalar "b", exScalar "vb"])
      ["b".toList] = some (exScalar "vb") := by
  rw [c5_mapping_segment_resolution _ _ _ _ _ (by decide)]
  have hfind : (pairsOf [exScalar "a", exScalar "va", exScalar "b", exScalar "vb"]).find?
      (fun kv => kv.1.value == "b".toList) = some (exScalar "b", exScalar "vb") := by
    simp [pairsOf, List.find?, exScalar]
  rw [hfind]
  exact resolveParts_nil _

/-- C6: a Document wrapper met mid-walk with a (non-empty) segment pending is
replaced by its first child and the same segment is retried; a childless
Document wrapper yields not-found. -/
theorem c6_document_unwrap (t : List Char) (rest : List (List Char))
    (tg vl : List Char) (cont : List Node) (ht : t ≠ []) :
    (∀ c tl, cont = c :: tl →
      resolveParts (.mk .documentNode tg vl cont) (t :: rest) =
        resolveParts c (t :: rest)) ∧
    (cont = [] →
      resolveParts (.mk .documentNode tg vl cont) (t :: rest) = none) := by
  constructor
  · intro c tl hc
    subst hc
    rw [resolveParts_doc _ _ _ _ _ ht]
  · intro hc
    subst hc
    rw [resolveParts_doc _ _ _ _ _ ht]

theorem c6_document_unwrap_witness :
    resolveParts exDocAB ["a".toList] = resolveParts exMapAB ["a".toList] :=
  (c6_document_unwrap "a".toList [] [] [] [exMapAB] (by decide)).1 exMapAB [] rfl

/-- C7: for a bracketed segment whose content parses to a non-negative `k`,
the wrapper builds a Sequence of length `k+1`: positions `0..k-1` hold the
fresh null-scalar placeholder (tag `!!null`, text `null`) and position `k`
holds the wrapped node; in particular wrapping any node at `"items[2]"`
yields `{items: [null, null, node]}` with the node third in a
three-element sequence. -/
theorem c7_bracket_wrap_builds_padded_sequence (part : List Char) (m : Node)
    (k : Int) (hbr : segWrapBracket part = true)
    (hat : goAtoi (bracketIdx part) = some k) (hk : 0 ≤ k) :
    applySeg part m = some (.mk .sequenceNode [] []
      (List.replicate k.toNat nullScalar ++ [m])) ∧
    (List.replicate k.toNat nullScalar ++ [m]).length = k.toNat + 1 ∧
    (List.replicate k.toNat nullScalar ++ [m])[k.toNat]? = some m ∧
    (∀ j < k.toNat, (List.replicate k.toNat nullScalar ++ [m])[j]? =
      some nullScalar) ∧
    nullScalar.tag = "!!null".toList ∧ nullScalar.value = "null".toList ∧
    (∀ r, wrapInPath r "items[2]".toList m =
      .mk .mappingNode [] []
        [.mk .scalarNode "!!str".toList "items".toList [],
         .mk .sequenceNode [] [] [nullScalar, nullScalar, m]]) := by
  refine ⟨?_, by simp, ?_, ?_, rfl, rfl, ?_⟩
  · simp [applySeg, hbr, hat]
  · have h := List.getElem?_concat_length (List.replicate k.toNat nullScalar) m
    simpa using h
  · intro j hj
    simp [List.getElem?_append, List.getElem?_replicate, hj]
  · intro r
    simp [wrapInPath, stripDot, splitPath, splitPathAux, wrapSegs, applySeg,
      segWrapBracket, bracketIdx, goAtoi, digitsVal, isDigitCh,
      List.replicate]

theorem c7_bracket_wrap_witness :
    applySeg "[2]".toList (exScalar "s") =
      some (.mk .sequenceNode [] [] [nullScalar, nullScalar, exScalar "s"]) := by
  have h := (c7_bracket_wrap_builds_padded_sequence "[2]".toList (exScalar "s") 2
    (by decide) (by decide) (by decide)).1
  simpa [List.replicate] using h

/-- C8: the lister prints one line per directly-nameable child in order down
to the depth limit with two-space indentation per level; maximum depth 0
means unlimited (it behaves as the depth-free lister), recursion stops once
the current depth reaches a positive maximum, and on the mapping
`{host: x, port: 1, credentials: {user: a, password: b}}` depth 1 prints
exactly `host`, `port`, `credentials` while depth 2 additionally prints
`user` and `password` indented two more spaces under `credentials`. -/
theorem c8_lister_depth_behavior :
    (∀ (n : Node) (pfx : List Char) (curD : Int),
      listNode n pfx 0 curD = listAll n pfx) ∧
    (∀ (n : Node) (pfx : List Char) (maxD curD : Int), 0 < maxD → maxD ≤ curD →
      listNode n pfx maxD curD = []) ∧
    listNode exDb [] 1 0 = ["host".toList, "port".toList, "credentials".toList] ∧
    listNode exDb [] 2 0 =
      ["host".toList, "port".toList, "credentials".toList,
       "  user".toList, "  password".toList] := by
  refine ⟨?_, ?_, ?_, ?_⟩
  · intro n pfx curD
    exact (list_depth_nonpos_aux (sizeOf n)).1 n pfx 0 curD le_rfl le_rfl
  · intro n pfx maxD curD h1 h2
    exact listNode_stop n pfx maxD curD ⟨h1, h2⟩
  · simp [exDb, exCred, exScalar, listNode, listPairs, listItems]
  · simp [exDb, exCred, exScalar, listNode, listPairs, listItems]

theorem c8_lister_depth_behavior_witness :
    listNode exDb [] 1 1 = [] :=
  c8_lister_depth_behavior.2.1 exDb [] 1 1 (by decide) (by decide)

/-- C1 counterexample: against the mapping whose sole key is the text
`[-1]`, the path `"[-1]"` resolves (by key text) to the scalar `v`;
the wrapper then treats `[-1]` as a sequence index (Atoi accepts the sign)
and builds a one-element Sequence, and re-resolving `"[-1]"` against that
Sequence is rejected as a negative index — the round trip fails. -/
theorem c1_roundtrip_counterexample :
    extractPath exMapNegKey "[-1]".toList = some (exScalar "v") ∧
    extractPath (wrapInPath exMapNegKey "[-1]".toList (exScalar "v"))
      "[-1]".toList = none := by
  constructor
  · simp [extractPath, stripDot, splitPath, splitPathAux, exMapNegKey, exScalar,
      resolveParts, mapLookup]
  · simp [extractPath, wrapInPath, stripDot, splitPath, splitPathAux, wrapSegs,
      applySeg, segWrapBracket, bracketIdx, goAtoi, digitsVal, isDigitCh,
      exMapNegKey, exScalar, resolveParts, nullScalar]

/-- C1 (amended): if resolving path `p` against `d` succeeds with match `m`,
and every bracket-shaped segment of `p` parses to a non-negative integer,
then resolving `p` (trim mode) against the tree produced by wrapping `m` in
`p` yields exactly `m`; without the proviso, bracket-shaped mapping keys
such as `[-1]` or `[x]` break the round trip. -/
theorem c1_wrap_extract_roundtrip (d m : Node) (p : List Char)
    (hres : extractPath d p = some m)
    (hgood : ∀ part ∈ splitPath (stripDot p),
      segWrapBracket part = true → segParsesNonneg part = true) :
    extractPath (wrapInPath d p m) p = some m := by
  by_cases hsp : stripDot p = []
  · have hdm : d = m := by
      simp only [extractPath, hsp, if_pos, Option.some.injEq] at hres
      exact hres
    subst hdm
    have hw : wrapInPath d p d = d := by
      simp [wrapInPath, hsp, splitPath, splitPathAux, wrapSegs]
    rw [hw]
    simp [extractPath, hsp]
  · have hne : ∀ s ∈ splitPath (stripDot p), s ≠ [] :=
      fun s hs => splitPath_ne_nil _ s hs
    obtain ⟨w, hws, hr⟩ := wrapSegs_resolve (splitPath (stripDot p)) hne hgood m
    have hwrap : wrapInPath d p m = w := by
      simp [wrapInPath, hws]
    rw [hwrap]
    simp [extractPath, hsp, hr]

theorem c1_wrap_extract_roundtrip_witness :
    extractPath (wrapInPath exDocA "a[1]".toList (exScalar "y"))
      "a[1]".toList = some (exScalar "y") :=
  c1_wrap_extract_roundtrip exDocA (exScalar "y") "a[1]".toList
    (by simp [extractPath, stripDot, splitPath, splitPathAux, exDocA, exMapA,
      exSeqXY, exScalar, resolveParts, mapLookup, bracketIdx, goAtoi,
      digitsVal, isDigitCh])
    (by decide)
